import Mathlib

/-!
Verification of the ESET quarantine recovery tool (CLI, GUI and the
standalone size-guessing script) against its natural-language
specification.

The Python sources are shallowly embedded:
* machine bytes become `ℕ` with explicit modular arithmetic over `ℤ`;
* Python floats that only ever hold exact small decimals (the 0.02 / 0.03
  tolerances and relative deviations) are modelled as exact rationals `ℚ`;
* Python dicts keyed by insertion order become association lists;
* the filesystem seen by the materializer becomes a list of target paths;
* the regular-expression engine used by the OCR candidate parsers is an
  external collaborator and is modelled as opaque function parameters.
-/

set_option maxRecDepth 8000

namespace EsetRecovery

/-! ## ByteCipher

`decrypt_eset_bytes` (eset_unquarantine_cli.py, lines 44–50; the GUI's
`eset_decrypt_bytes` is byte-for-byte identical):

```python
def decrypt_eset_bytes(data: bytes) -> bytes:
    out = bytearray(len(data))
    for i, b in enumerate(data):
        out[i] = ((b - 84) & 0xFF) ^ 0xA5
    return bytes(out)
```

Python's `& 0xFF` on the possibly negative `b - 84` is arithmetic modulo
256, i.e. `Int.emod`.
-/

/-- One byte of the ESET transform: `((b - 84) & 0xFF) ^ 0xA5`. -/
def eset_byte (b : ℕ) : ℕ := (((b : ℤ) - 84).emod 256).toNat ^^^ 0xA5

/-- `decrypt_eset_bytes`: the per-byte transform applied independently to
every byte of the input. -/
def decrypt_eset_bytes (data : List ℕ) : List ℕ := data.map eset_byte

/-! ## Size tolerance tests

CLI `within_tol` (eset_unquarantine_cli.py, lines 86–91):

```python
def within_tol(sz: int, target: int) -> bool:
    if target <= 0:
        return False
    rel = abs(sz - target) / target
    return rel <= (0.02 if target >= 1024*1024 else 0.03)
```

GUI `within_tolerance` (eset_unquarantine_gui.py, lines 86–90):

```python
def within_tolerance(actual: int, target: int) -> bool:
    if target <= 0 or actual <= 0:
        return False
    tol = 0.02 if target >= 1_000_000 else 0.03
    return abs(actual - target) / target <= tol
```
-/

/-- CLI size test `within_tol`.  Python applies integer `abs` to
`sz - target` and divides by `target` exactly; the quotient is modelled as
an exact rational. -/
def within_tol (sz target : ℤ) : Bool :=
  if target ≤ 0 then false
  else
    decide ((((sz - target).natAbs : ℚ) / (target : ℚ)) ≤
      (if 1024 * 1024 ≤ target then (2 : ℚ) / 100 else (3 : ℚ) / 100))

/-- GUI size test `within_tolerance`. -/
def within_tolerance (actual target : ℤ) : Bool :=
  if target ≤ 0 ∨ actual ≤ 0 then false
  else
    decide ((((actual - target).natAbs : ℚ) / (target : ℚ)) ≤
      (if 1000000 ≤ target then (2 : ℚ) / 100 else (3 : ℚ) / 100))

/-- The tolerance band the claim says is selected by the artifact size `S`:
2% for `S` at or above 1 MiB, 3% below. -/
def claimed_band (S : ℤ) : ℚ := if 1048576 ≤ S then (2 : ℚ) / 100 else (3 : ℚ) / 100

/-- Casting an integer absolute difference to `ℚ` is the rational absolute
difference. -/
theorem natAbs_sub_cast (a b : ℤ) :
    (((a - b).natAbs : ℚ)) = |(a : ℚ) - (b : ℚ)| := by
  rw [Int.cast_natAbs]
  push_cast
  ring_nf

/-- C1 (counterexample): at artifact size `S = 1048576` (exactly 1 MiB) and
candidate size `T = 1020000 > 0`, the CLI size test accepts although the
relative deviation `28576/1020000 ≈ 0.028` exceeds the 2% band the claim
prescribes for `S ≥ 1 MiB`; the code selects the band from the candidate
size `T`, not from `S`. -/
theorem within_tol_band_counterexample :
    within_tol 1048576 1020000 = true ∧
    ¬ (|(1048576 : ℚ) - (1020000 : ℚ)| / (1020000 : ℚ) ≤ claimed_band 1048576) ∧
    (0 : ℤ) < 1020000 := by
  refine ⟨?_, ?_, by decide⟩
  · rw [within_tol]
    norm_num
  · rw [claimed_band]
    norm_num

/-- C1 (amended): for every positive candidate size `T`, the CLI test
accepts iff `|S-T|/T ≤ 0.02` when `T ≥ 1 048 576` and `≤ 0.03` otherwise —
the band is selected by the candidate size `T`, and deviation exactly at
the edge is accepted; the GUI variant does the same with threshold
`T ≥ 1 000 000`, additionally requiring the artifact size to be positive. -/
theorem within_tol_iff_target_band (S T : ℤ) (hT : 0 < T) :
    (within_tol S T = true ↔
      |(S : ℚ) - (T : ℚ)| / (T : ℚ) ≤
        (if 1024 * 1024 ≤ T then (2 : ℚ) / 100 else (3 : ℚ) / 100)) ∧
    (0 < S →
      (within_tolerance S T = true ↔
        |(S : ℚ) - (T : ℚ)| / (T : ℚ) ≤
          (if 1000000 ≤ T then (2 : ℚ) / 100 else (3 : ℚ) / 100))) := by
  constructor
  · rw [within_tol, if_neg (by omega), natAbs_sub_cast]
    exact decide_eq_true_iff
  · intro hS
    rw [within_tolerance, if_neg (by omega), natAbs_sub_cast]
    exact decide_eq_true_iff

/-- C1 (witness): the amended statement evaluated at `S = T = 48640`
(deviation 0, below both thresholds, hence the 3% band). -/
theorem within_tol_iff_target_band_witness :
    ((within_tol 48640 48640 = true ↔
      |(48640 : ℚ) - (48640 : ℚ)| / (48640 : ℚ) ≤
        (if (1024 * 1024 : ℤ) ≤ 48640 then (2 : ℚ) / 100 else (3 : ℚ) / 100)) ∧
    (0 < (48640 : ℤ) →
      (within_tolerance 48640 48640 = true ↔
        |(48640 : ℚ) - (48640 : ℚ)| / (48640 : ℚ) ≤
          (if (1000000 : ℤ) ≤ 48640 then (2 : ℚ) / 100 else (3 : ℚ) / 100)))) :=
  within_tol_iff_target_band 48640 48640 (by decide)

/-- C9: the size tests are guarded against non-positive candidate sizes —
no division by zero can occur and a non-positive candidate never matches;
the GUI variant also rejects whenever the artifact size is non-positive. -/
theorem within_tol_nonpositive_guard (sz target : ℤ) :
    (target ≤ 0 → within_tol sz target = false) ∧
    (target ≤ 0 ∨ sz ≤ 0 → within_tolerance sz target = false) := by
  constructor
  · intro h
    rw [within_tol, if_pos h]
  · intro h
    rw [within_tolerance, if_pos h]

/-- C9 (witness): candidate size `0` is rejected by the CLI test and an
artifact size `-1` is rejected by the GUI test. -/
theorem within_tol_nonpositive_guard_witness :
    within_tol 48640 0 = false ∧ within_tolerance (-1) 48640 = false :=
  ⟨(within_tol_nonpositive_guard 48640 0).1 (by decide),
   (within_tol_nonpositive_guard (-1) 48640).2 (Or.inr (by decide))⟩

/-- C2: `decrypt` preserves length, maps byte `i` of the input to
`((x[i] - 84) mod 256) XOR 0xA5` at position `i` independently of
neighbouring bytes, and on the 256-element identity sequence it yields a
permutation of the byte alphabet with no collisions. -/
theorem decrypt_per_byte_and_bijective (x : List ℕ) :
    (decrypt_eset_bytes x).length = x.length ∧
    (∀ i, i < x.length →
      (decrypt_eset_bytes x).getD i 0 =
        (((x.getD i 0 : ℤ) - 84).emod 256).toNat ^^^ 0xA5) ∧
    (decrypt_eset_bytes (List.range 256)).Perm (List.range 256) ∧
    (decrypt_eset_bytes (List.range 256)).Nodup := by
  refine ⟨by simp [decrypt_eset_bytes], ?_, by decide, by decide⟩
  intro i h
  have h2 : i < (decrypt_eset_bytes x).length := by
    simpa [decrypt_eset_bytes] using h
  rw [List.getD_eq_getElem _ _ h2, List.getD_eq_getElem _ _ h]
  simp [decrypt_eset_bytes, eset_byte]

/-- C2 (witness): the theorem applied to the concrete input `[84, 85]`;
byte `0` decrypts to `0xA5 = 165`. -/
theorem decrypt_per_byte_and_bijective_witness :
    (decrypt_eset_bytes [84, 85]).length = 2 ∧
    (decrypt_eset_bytes [84, 85]).getD 0 0 = 165 := by
  have h := decrypt_per_byte_and_bijective [84, 85]
  refine ⟨h.1, ?_⟩
  rw [h.2.1 0 (by decide)]
  decide

/-- C5: the per-byte transform is not an involution — decrypting the
single-byte sequence `[0]` twice yields `[16]`, not `[0]`. -/
theorem decrypt_not_involution :
    ∃ b, b < 256 ∧ decrypt_eset_bytes (decrypt_eset_bytes [b]) ≠ [b] :=
  ⟨0, by decide, by decide⟩

/-! ## First-occurrence deduplication

Models the Python idioms `list(dict.fromkeys(xs))` (in `propose_names`)
and the `seen`-set loops of `ocr_candidates` / `parse_ocr_candidates`:
walk the list carrying the set of keys already seen, keeping an element
iff its key is new. -/

/-- Dedup keeping first occurrences, carrying the keys already seen. -/
def dedup_aux {α κ : Type} [DecidableEq κ] (key : α → κ) (seen : List κ) :
    List α → List α
  | [] => []
  | x :: xs =>
    if key x ∈ seen then dedup_aux key seen xs
    else x :: dedup_aux key (key x :: seen) xs

/-- Dedup a list by a key, keeping the first occurrence of each key. -/
def dedupFirstBy {α κ : Type} [DecidableEq κ] (key : α → κ) (l : List α) :
    List α :=
  dedup_aux key [] l

/-- `list(dict.fromkeys(matched_names))`: dedup preserving first-seen order. -/
def dedupFirst (l : List String) : List String := dedupFirstBy id l

theorem dedup_aux_sublist {α κ : Type} [DecidableEq κ] (key : α → κ) :
    ∀ (l : List α) (seen : List κ), (dedup_aux key seen l).Sublist l
  | [], _ => List.Sublist.refl []
  | x :: xs, seen => by
    rw [dedup_aux]
    by_cases h : key x ∈ seen
    · rw [if_pos h]
      exact (dedup_aux_sublist key xs seen).trans (List.sublist_cons_self x xs)
    · rw [if_neg h]
      exact (dedup_aux_sublist key xs (key x :: seen)).cons₂ x

theorem mem_map_dedup_aux {α κ : Type} [DecidableEq κ] (key : α → κ) (k : κ) :
    ∀ (l : List α) (seen : List κ),
      k ∈ (dedup_aux key seen l).map key ↔ k ∈ l.map key ∧ k ∉ seen := by
  intro l
  induction l with
  | nil => simp [dedup_aux]
  | cons x xs ih =>
    intro seen
    rw [dedup_aux]
    by_cases h : key x ∈ seen
    · rw [if_pos h]
      rw [ih seen]
      simp only [List.map_cons, List.mem_cons]
      constructor
      · exact fun ⟨h1, h2⟩ => ⟨Or.inr h1, h2⟩
      · rintro ⟨h1 | h1, h2⟩
        · exact absurd (h1 ▸ h) h2
        · exact ⟨h1, h2⟩
    · rw [if_neg h]
      simp only [List.map_cons, List.mem_cons, ih (key x :: seen)]
      constructor
      · rintro (h1 | ⟨h1, h2⟩)
        · exact ⟨Or.inl h1, h1 ▸ h⟩
        · exact ⟨Or.inr h1, fun hk => h2 (Or.inr hk)⟩
      · rintro ⟨h1 | h1, h2⟩
        · exact Or.inl h1
        · by_cases hk : k = key x
          · exact Or.inl hk
          · exact Or.inr ⟨h1, by simp [hk, h2]⟩

theorem nodup_map_dedup_aux {α κ : Type} [DecidableEq κ] (key : α → κ) :
    ∀ (l : List α) (seen : List κ), ((dedup_aux key seen l).map key).Nodup := by
  intro l
  induction l with
  | nil => simp [dedup_aux]
  | cons x xs ih =>
    intro seen
    rw [dedup_aux]
    by_cases h : key x ∈ seen
    · rw [if_pos h]; exact ih seen
    · rw [if_neg h]
      simp only [List.map_cons, List.nodup_cons]
      refine ⟨fun hmem => ?_, ih (key x :: seen)⟩
      exact ((mem_map_dedup_aux key _ xs (key x :: seen)).1 hmem).2 (List.mem_cons_self _ _)

theorem find?_dedup_aux {α κ : Type} [DecidableEq κ] (key : α → κ) :
    ∀ (l : List α) (seen : List κ) (y : α), y ∈ dedup_aux key seen l →
      l.find? (fun z => decide (key z = key y)) = some y := by
  intro l
  induction l with
  | nil => intro seen y hy; simp [dedup_aux] at hy
  | cons x xs ih =>
    intro seen y hy
    rw [dedup_aux] at hy
    by_cases h : key x ∈ seen
    · rw [if_pos h] at hy
      have hkey : key y ∉ seen := by
        have := (mem_map_dedup_aux key (key y) xs seen).1 (List.mem_map_of_mem key hy)
        exact this.2
      have hne : (decide (key x = key y)) = false :=
        decide_eq_false (fun heq => hkey (heq ▸ h))
      simp only [List.find?_cons, hne]
      exact ih seen y hy
    · rw [if_neg h, List.mem_cons] at hy
      rcases hy with rfl | hy
      · simp [List.find?_cons, decide_eq_true (show key y = key y from rfl)]
      · have hkey : key y ∉ key x :: seen := by
          have := (mem_map_dedup_aux key (key y) xs (key x :: seen)).1
            (List.mem_map_of_mem key hy)
          exact this.2
        have hne : (decide (key x = key y)) = false :=
          decide_eq_false (fun heq => hkey (heq ▸ List.mem_cons_self _ _))
        simp only [List.find?_cons, hne]
        exact ih (key x :: seen) y hy

theorem head?_dedupFirstBy {α κ : Type} [DecidableEq κ] (key : α → κ)
    (l : List α) : (dedupFirstBy key l).head? = l.head? := by
  cases l with
  | nil => rfl
  | cons x xs => simp [dedupFirstBy, dedup_aux]

theorem mem_dedupFirst (x : String) (l : List String) :
    x ∈ dedupFirst l ↔ x ∈ l := by
  have := mem_map_dedup_aux (id : String → String) x l []
  simpa [dedupFirst, dedupFirstBy] using this

theorem nodup_dedupFirst (l : List String) : (dedupFirst l).Nodup := by
  have := nodup_map_dedup_aux (id : String → String) l []
  simpa [dedupFirst, dedupFirstBy] using this

theorem head?_dedupFirst (l : List String) : (dedupFirst l).head? = l.head? :=
  head?_dedupFirstBy id l

/-! ## Matcher (`propose_names`, eset_unquarantine_cli.py lines 187–214)

```python
def propose_names(out_items, cand_list):
    proposals = {}
    by_size = {}
    for nm, sz in cand_list:
        by_size.setdefault(sz, []).append(nm)
    for it in out_items:
        matched_names = []
        for cand_sz, names in by_size.items():
            if within_tol(it["out_size"], cand_sz):
                matched_names.extend(names)
        matched_names = list(dict.fromkeys(matched_names))
        if not matched_names:
            proposals[it["idx"]] = {"name":"(missing)", "label":"(missing)"}
        else:
            nm = matched_names[0]
            label = "(possible duplicate)" if len(matched_names) > 1 else ""
            proposals[it["idx"]] = {"name": nm, "label": label}
    return proposals
```

The insertion-ordered dict `by_size` is modelled as an association list of
`(size, names)` groups. -/

/-- A candidate `(name, size_bytes)` as returned by the extractors. -/
abbrev Cand := String × ℤ

/-- One decrypted artifact as seen by the Matcher: discovery index and
decrypted size. -/
structure OutItem where
  idx : ℕ
  out_size : ℤ
  deriving DecidableEq, Repr

/-- A proposal entry `{"name": ..., "label": ...}`; label `""` means no
flag, `"(possible duplicate)"` and `"(missing)"` are the two flags. -/
structure Proposal where
  name : String
  label : String
  deriving DecidableEq, Repr

/-- `by_size.setdefault(sz, []).append(nm)` for one candidate. -/
def add_cand (acc : List (ℤ × List String)) (c : Cand) : List (ℤ × List String) :=
  if acc.any (fun g => g.1 == c.2) then
    acc.map (fun g => if g.1 == c.2 then (g.1, g.2 ++ [c.1]) else g)
  else acc ++ [(c.2, [c.1])]

/-- The `by_size` dict of `propose_names`: groups candidates by size in
first-occurrence order, names inside a group in list order. -/
def group_by_size (cs : List Cand) : List (ℤ × List String) :=
  cs.foldl add_cand []

/-- The names stored under size `sz` in a group list. -/
def grp_names (sz : ℤ) (gs : List (ℤ × List String)) : List String :=
  ((gs.filter (fun g => g.1 == sz)).map (fun g => g.2)).flatten

/-- Invariant of the `by_size` dict: distinct sizes, no empty name group. -/
def GoodGroups (gs : List (ℤ × List String)) : Prop :=
  (gs.map (fun g => g.1)).Nodup ∧ ∀ g ∈ gs, g.2 ≠ []

theorem goodGroups_nil : GoodGroups [] := ⟨List.nodup_nil, by simp⟩

theorem fst_add_cand_map (c : Cand) (g : ℤ × List String) :
    ((if g.1 == c.2 then (g.1, g.2 ++ [c.1]) else g) : ℤ × List String).1 = g.1 := by
  by_cases h : g.1 == c.2 <;> simp [h]

theorem goodGroups_add_cand {acc : List (ℤ × List String)} (c : Cand)
    (hg : GoodGroups acc) : GoodGroups (add_cand acc c) := by
  rw [add_cand]
  by_cases hany : acc.any (fun g => g.1 == c.2) = true
  · rw [if_pos hany]
    constructor
    · have : (acc.map (fun g => if g.1 == c.2 then (g.1, g.2 ++ [c.1]) else g)).map
          (fun g => g.1) = acc.map (fun g => g.1) := by
        rw [List.map_map]
        exact List.map_congr_left (fun g _ => fst_add_cand_map c g)
      rw [this]
      exact hg.1
    · intro g hgmem
      rcases List.mem_map.1 hgmem with ⟨g0, hg0, rfl⟩
      by_cases h : g0.1 == c.2 <;> simp [h]
      exact hg.2 g0 hg0
  · rw [if_neg hany]
    constructor
    · rw [List.map_append]
      simp only [List.map_cons, List.map_nil]
      apply List.Nodup.append hg.1 (List.nodup_singleton _)
      intro a ha hb
      rcases List.mem_map.1 ha with ⟨g0, hg0, rfl⟩
      rcases List.mem_singleton.1 hb with h
      rw [List.any_eq_true] at hany
      exact hany ⟨g0, hg0, by simp [h]⟩
    · intro g hgmem
      rcases List.mem_append.1 hgmem with h | h
      · exact hg.2 g h
      · rcases List.mem_singleton.1 h with rfl
        simp

/-- In a size-Nodup group list, a size that occurs filters to a single
group. -/
theorem filter_eq_singleton_of_any (gs : List (ℤ × List String)) (v : ℤ)
    (hnd : (gs.map (fun g => g.1)).Nodup)
    (hany : gs.any (fun g => g.1 == v) = true) :
    ∃ ns, gs.filter (fun g => g.1 == v) = [(v, ns)] := by
  induction gs with
  | nil => simp at hany
  | cons g t ih =>
    simp only [List.map_cons, List.nodup_cons] at hnd
    by_cases hv : g.1 = v
    · rcases g with ⟨a, b⟩
      simp only at hv
      subst hv
      refine ⟨b, ?_⟩
      rw [List.filter_cons_of_pos (by simp)]
      have ht : t.filter (fun g : ℤ × List String => g.1 == a) = [] := by
        rw [List.filter_eq_nil_iff]
        intro x hx
        simp only [beq_iff_eq]
        intro heq
        exact hnd.1 (heq ▸ List.mem_map_of_mem (fun g => g.1) hx)
      rw [ht]
    · rw [List.filter_cons_of_neg (by simp [hv])]
      apply ih hnd.2
      rw [List.any_cons] at hany
      simp only [Bool.or_eq_true, beq_iff_eq, hv, false_or] at hany
      exact hany

/-- Effect of one grouping step on the names stored under a given size. -/
theorem grp_names_add_cand (sz : ℤ) (c : Cand) (acc : List (ℤ × List String))
    (hg : GoodGroups acc) :
    grp_names sz (add_cand acc c) =
      grp_names sz acc ++ (if c.2 == sz then [c.1] else []) := by
  rw [add_cand]
  by_cases hany : acc.any (fun g => g.1 == c.2) = true
  · rw [if_pos hany, grp_names, List.filter_map]
    have hfeq : (fun g : ℤ × List String =>
        ((if g.1 == c.2 then (g.1, g.2 ++ [c.1]) else g).1 == sz)) =
        (fun g : ℤ × List String => (g.1 == sz)) := by
      funext g
      rw [fst_add_cand_map]
    rw [show ((fun g : ℤ × List String => g.1 == sz) ∘
        (fun g => if g.1 == c.2 then (g.1, g.2 ++ [c.1]) else g)) =
        (fun g : ℤ × List String => (g.1 == sz)) from hfeq]
    by_cases hsz : c.2 = sz
    · subst hsz
      rcases filter_eq_singleton_of_any acc c.2 hg.1 hany with ⟨ns, hns⟩
      rw [hns]
      simp [grp_names, hns]
    · have : ∀ g ∈ acc.filter (fun g : ℤ × List String => g.1 == sz),
          (if g.1 == c.2 then (g.1, g.2 ++ [c.1]) else g) = g := by
        intro g hgm
        have := List.of_mem_filter hgm
        simp only [beq_iff_eq] at this
        rw [if_neg (by simp only [this, beq_iff_eq]; exact fun heq => hsz heq.symm)]
      rw [List.map_congr_left this]
      simp only [beq_iff_eq, hsz, if_false]
      simp [grp_names]
  · rw [if_neg hany, grp_names, List.filter_append, List.map_append,
      List.flatten_append]
    congr 1
    by_cases hsz : c.2 = sz <;> simp [grp_names, hsz]

/-- The names grouped under `sz` by the whole loop are exactly the names of
the candidates with that size, in candidate-list order. -/
theorem grp_names_foldl (sz : ℤ) :
    ∀ (cs : List Cand) (acc : List (ℤ × List String)), GoodGroups acc →
      grp_names sz (cs.foldl add_cand acc) =
        grp_names sz acc ++ (cs.filter (fun c => c.2 == sz)).map (fun c => c.1) := by
  intro cs
  induction cs with
  | nil => intro acc _; simp
  | cons c rest ih =>
    intro acc hg
    rw [List.foldl_cons, ih (add_cand acc c) (goodGroups_add_cand c hg),
      grp_names_add_cand sz c acc hg]
    by_cases h : c.2 = sz
    · simp [h, List.filter_cons, List.append_assoc]
    · simp [h, List.filter_cons]

theorem grp_names_group_by_size (sz : ℤ) (cs : List Cand) :
    grp_names sz (group_by_size cs) =
      (cs.filter (fun c => c.2 == sz)).map (fun c => c.1) := by
  rw [group_by_size, grp_names_foldl sz cs [] goodGroups_nil]
  simp [grp_names]

theorem goodGroups_group_by_size (cs : List Cand) :
    GoodGroups (group_by_size cs) := by
  rw [group_by_size]
  induction cs using List.reverseRecOn with
  | nil => exact goodGroups_nil
  | append_singleton rest c ih =>
    rw [List.foldl_append, List.foldl_cons, List.foldl_nil]
    exact goodGroups_add_cand c ih

/-- The raw (pre-dedup) matched-name list built by the inner loop of
`propose_names` from a group list: names of every group whose size is
within tolerance, in group order. -/
def matched_raw (S : ℤ) (gs : List (ℤ × List String)) : List String :=
  ((gs.filter (fun g => within_tol S g.1)).map (fun g => g.2)).flatten

/-- `matched_names = list(dict.fromkeys(matched_names))` of `propose_names`. -/
def matched_names (S : ℤ) (cs : List Cand) : List String :=
  dedupFirst (matched_raw S (group_by_size cs))

theorem mem_matched_raw_of {S : ℤ} {gs : List (ℤ × List String)}
    {g : ℤ × List String} {x : String} (hgmem : g ∈ gs)
    (hP : within_tol S g.1 = true) (hx : x ∈ g.2) : x ∈ matched_raw S gs := by
  rw [matched_raw, List.mem_flatten]
  exact ⟨g.2, List.mem_map_of_mem _ (List.mem_filter.2 ⟨hgmem, hP⟩), hx⟩

theorem mem_grp_names_of {gs : List (ℤ × List String)} {g : ℤ × List String}
    {x : String} (hgmem : g ∈ gs) (hx : x ∈ g.2) : x ∈ grp_names g.1 gs := by
  rw [grp_names, List.mem_flatten]
  exact ⟨g.2, List.mem_map_of_mem _ (List.mem_filter.2 ⟨hgmem, by simp⟩), hx⟩

/-- Membership in the code's raw matched list is exactly being the name of
a candidate whose size is within tolerance. -/
theorem mem_matched_raw_group_by_size (S : ℤ) (cs : List Cand) (x : String) :
    x ∈ matched_raw S (group_by_size cs) ↔
      ∃ c ∈ cs, within_tol S c.2 = true ∧ c.1 = x := by
  constructor
  · intro hx
    rw [matched_raw, List.mem_flatten] at hx
    rcases hx with ⟨l, hl, hxl⟩
    rcases List.mem_map.1 hl with ⟨g, hgf, rfl⟩
    rcases List.mem_filter.1 hgf with ⟨hgmem, hP⟩
    have hx2 : x ∈ grp_names g.1 (group_by_size cs) := mem_grp_names_of hgmem hxl
    rw [grp_names_group_by_size] at hx2
    rcases List.mem_map.1 hx2 with ⟨c, hcf, rfl⟩
    rcases List.mem_filter.1 hcf with ⟨hcmem, hcsz⟩
    rw [beq_iff_eq] at hcsz
    exact ⟨c, hcmem, by rw [hcsz]; exact hP, rfl⟩
  · rintro ⟨c, hc, hw, rfl⟩
    have hx2 : c.1 ∈ grp_names c.2 (group_by_size cs) := by
      rw [grp_names_group_by_size]
      exact List.mem_map_of_mem _ (List.mem_filter.2 ⟨hc, by simp⟩)
    rw [grp_names, List.mem_flatten] at hx2
    rcases hx2 with ⟨l, hl, hxl⟩
    rcases List.mem_map.1 hl with ⟨g, hgf, rfl⟩
    rcases List.mem_filter.1 hgf with ⟨hgmem, hgsz⟩
    rw [beq_iff_eq] at hgsz
    exact mem_matched_raw_of hgmem (by rw [hgsz]; exact hw) hxl

/-- Left-biased choice on optional values (used to state how list heads
combine under appending). -/
def optOr (o d : Option String) : Option String :=
  match o with
  | some x => some x
  | none => d

theorem optOr_some (x : String) (d : Option String) : optOr (some x) d = some x := rfl

theorem optOr_none (d : Option String) : optOr none d = d := rfl

theorem optOr_none_right (o : Option String) : optOr o none = o := by
  cases o <;> rfl

theorem optOr_assoc (a b c : Option String) :
    optOr (optOr a b) c = optOr a (optOr b c) := by
  cases a <;> rfl

theorem head?_append_optOr (l t : List String) :
    (l ++ t).head? = optOr l.head? t.head? := by
  cases l <;> rfl

/-- Appending extra names at the end of every (nonempty) group does not
change the head of the flattened name list. -/
theorem head?_flatten_append_ext (L : List (ℤ × List String))
    (e : ℤ × List String → List String) (h : ∀ g ∈ L, g.2 ≠ []) :
    ((L.map (fun g => g.2 ++ e g)).flatten).head? =
      ((L.map (fun g => g.2)).flatten).head? := by
  cases L with
  | nil => rfl
  | cons g t =>
    simp only [List.map_cons, List.flatten_cons]
    rcases hg : g.2 with _ | ⟨a, as⟩
    · exact absurd hg (h g (List.mem_cons_self _ _))
    · simp

/-- Effect of one grouping step on the head of the raw matched list. -/
theorem head?_matched_raw_add_cand (S : ℤ) (c : Cand)
    (acc : List (ℤ × List String)) (hg : GoodGroups acc) :
    (matched_raw S (add_cand acc c)).head? =
      optOr (matched_raw S acc).head?
        (if within_tol S c.2 then some c.1 else none) := by
  rw [add_cand]
  by_cases hany : acc.any (fun g => g.1 == c.2) = true
  · rw [if_pos hany]
    have hfilter : (acc.map (fun g : ℤ × List String =>
        if g.1 == c.2 then (g.1, g.2 ++ [c.1]) else g)).filter
          (fun g => within_tol S g.1) =
        (acc.filter (fun g => within_tol S g.1)).map
          (fun g => if g.1 == c.2 then (g.1, g.2 ++ [c.1]) else g) := by
      rw [List.filter_map]
      congr 1
      apply List.filter_congr
      intro g _
      simp only [Function.comp_apply, fst_add_cand_map]
    rw [matched_raw, hfilter, List.map_map]
    have hmapeq : ((fun g : ℤ × List String => g.2) ∘
        (fun g : ℤ × List String => if g.1 == c.2 then (g.1, g.2 ++ [c.1]) else g)) =
        (fun g : ℤ × List String => g.2 ++ (if g.1 == c.2 then [c.1] else [])) := by
      funext g
      by_cases h : g.1 = c.2 <;> simp [h]
    rw [hmapeq]
    rw [head?_flatten_append_ext _ _
      (fun g hgm => hg.2 g (List.mem_filter.1 hgm).1)]
    rw [← matched_raw]
    cases ho : (matched_raw S acc).head? with
    | some x => rw [optOr_some]
    | none =>
      rw [optOr_none]
      by_cases hw : within_tol S c.2 = true
      · exfalso
        rw [List.any_eq_true] at hany
        rcases hany with ⟨g, hgmem, hgsz⟩
        rw [beq_iff_eq] at hgsz
        have hne : g.2 ≠ [] := hg.2 g hgmem
        rcases hgne : g.2 with _ | ⟨a, as⟩
        · exact hne hgne
        · have : a ∈ matched_raw S acc :=
            mem_matched_raw_of hgmem (by rw [hgsz]; exact hw)
              (by rw [hgne]; exact List.mem_cons_self _ _)
          rw [List.head?_eq_none_iff] at ho
          rw [ho] at this
          exact absurd this (List.not_mem_nil a)
      · simp [Bool.eq_false_iff.2 hw]
  · rw [if_neg hany, matched_raw, List.filter_append, List.map_append,
      List.flatten_append, head?_append_optOr, ← matched_raw]
    congr 1
    by_cases hw : within_tol S c.2 = true <;> simp [matched_raw, hw]

/-- The head of the raw matched list over the whole grouping loop is the
name of the first candidate whose size is within tolerance. -/
theorem head?_matched_raw_foldl (S : ℤ) :
    ∀ (cs : List Cand) (acc : List (ℤ × List String)), GoodGroups acc →
      (matched_raw S (cs.foldl add_cand acc)).head? =
        optOr (matched_raw S acc).head?
          (((cs.filter (fun c => within_tol S c.2)).map (fun c => c.1)).head?) := by
  intro cs
  induction cs with
  | nil =>
    intro acc _
    simp only [List.foldl_nil, List.filter_nil, List.map_nil, List.head?_nil]
    rw [optOr_none_right]
  | cons c rest ih =>
    intro acc hgood
    rw [List.foldl_cons, ih (add_cand acc c) (goodGroups_add_cand c hgood),
      head?_matched_raw_add_cand S c acc hgood, optOr_assoc]
    congr 1
    by_cases hw : within_tol S c.2 = true <;>
      simp [List.filter_cons, hw, optOr_some, optOr_none]

theorem head?_matched_names (S : ℤ) (cs : List Cand) :
    (matched_names S cs).head? =
      (((cs.filter (fun c => within_tol S c.2)).map (fun c => c.1))).head? := by
  rw [matched_names, head?_dedupFirst, group_by_size,
    head?_matched_raw_foldl S cs [] goodGroups_nil]
  rw [show matched_raw S [] = [] from rfl, List.head?_nil, optOr_none]

theorem mem_matched_names (S : ℤ) (cs : List Cand) (x : String) :
    x ∈ matched_names S cs ↔
      x ∈ (cs.filter (fun c => within_tol S c.2)).map (fun c => c.1) := by
  rw [matched_names, mem_dedupFirst, mem_matched_raw_group_by_size]
  simp only [List.mem_map, List.mem_filter]
  constructor
  · rintro ⟨c, hc, hw, rfl⟩
    exact ⟨c, ⟨hc, hw⟩, rfl⟩
  · rintro ⟨c, ⟨hc, hw⟩, rfl⟩
    exact ⟨c, hc, hw, rfl⟩

/-- The decision rule of `propose_names` for one artifact of decrypted
size `S` (the `by_size` dict is rebuilt here; it is the same pure value
the Python code computes once before its loop). -/
def propose_one (S : ℤ) (cs : List Cand) : Proposal :=
  let matched := matched_names S cs
  if matched = [] then ⟨"(missing)", "(missing)"⟩
  else ⟨matched.headI, if 1 < matched.length then "(possible duplicate)" else ""⟩

/-- `propose_names`: one proposal per artifact, keyed by its index. -/
def propose_names (items : List OutItem) (cs : List Cand) :
    List (ℕ × Proposal) :=
  items.map (fun it => (it.idx, propose_one it.out_size cs))

/-- Transcription of the specification's decision rule (§4.3), for
comparison with the code: collect the distinct names of the candidates
within tolerance, in candidate-list order; none ↦ missing, one ↦ that name
unflagged, several ↦ the first matching candidate's name flagged as
possible duplicate. -/
def proposal_spec (S : ℤ) (cs : List Cand) : Proposal :=
  let m := dedupFirst ((cs.filter (fun c => within_tol S c.2)).map (fun c => c.1))
  if m = [] then ⟨"(missing)", "(missing)"⟩
  else ⟨m.headI, if 1 < m.length then "(possible duplicate)" else ""⟩

theorem propose_one_eq_spec (S : ℤ) (cs : List Cand) :
    propose_one S cs = proposal_spec S cs := by
  rw [propose_one, proposal_spec]
  have hmem : ∀ x, x ∈ matched_names S cs ↔
      x ∈ dedupFirst ((cs.filter (fun c => within_tol S c.2)).map (fun c => c.1)) := by
    intro x
    rw [mem_matched_names, mem_dedupFirst]
  have hh : (matched_names S cs).head? =
      (dedupFirst ((cs.filter (fun c => within_tol S c.2)).map (fun c => c.1))).head? := by
    rw [head?_matched_names, head?_dedupFirst]
  have hnd1 : (matched_names S cs).Nodup := nodup_dedupFirst _
  have hnd2 : (dedupFirst ((cs.filter (fun c => within_tol S c.2)).map
      (fun c => c.1))).Nodup := nodup_dedupFirst _
  have hfin : (matched_names S cs).toFinset =
      (dedupFirst ((cs.filter (fun c => within_tol S c.2)).map (fun c => c.1))).toFinset := by
    apply Finset.ext
    intro x
    simp only [List.mem_toFinset]
    exact hmem x
  have hlen : (matched_names S cs).length =
      (dedupFirst ((cs.filter (fun c => within_tol S c.2)).map (fun c => c.1))).length := by
    rw [← List.toFinset_card_of_nodup hnd1, ← List.toFinset_card_of_nodup hnd2, hfin]
  have hnil : matched_names S cs = [] ↔
      dedupFirst ((cs.filter (fun c => within_tol S c.2)).map (fun c => c.1)) = [] := by
    rw [← List.length_eq_zero, ← List.length_eq_zero, hlen]
  by_cases h2 : dedupFirst ((cs.filter (fun c => within_tol S c.2)).map (fun c => c.1)) = []
  · rw [if_pos (hnil.2 h2), if_pos h2]
  · rw [if_neg (fun h => h2 (hnil.1 h)), if_neg h2]
    have hheadI : (matched_names S cs).headI =
        (dedupFirst ((cs.filter (fun c => within_tol S c.2)).map (fun c => c.1))).headI := by
      rcases hm2 : dedupFirst ((cs.filter (fun c => within_tol S c.2)).map (fun c => c.1))
        with _ | ⟨a, t2⟩
      · exact absurd hm2 h2
      · rcases hm1 : matched_names S cs with _ | ⟨b, t1⟩
        · exact absurd (hnil.1 hm1) h2
        · rw [hm2, List.headI_cons, List.headI_cons]
          rw [hm1, hm2] at hh
          simpa using hh
    rw [hheadI, hlen]

/-- C3: `propose_names` yields exactly one proposal per artifact, keyed by
the artifact's index in input order, and each proposal follows the
specification's decision rule on the set of distinct within-tolerance
candidate names: none ↦ `(missing)`/missing flag, one ↦ that name with no
flag, several ↦ the name of the first within-tolerance candidate in
candidate-list (extraction) order with the possible-duplicate flag. -/
theorem propose_names_decision (items : List OutItem) (cs : List Cand) :
    propose_names items cs =
      items.map (fun it => (it.idx, proposal_spec it.out_size cs)) := by
  rw [propose_names]
  exact List.map_congr_left (fun it _ => by rw [propose_one_eq_spec])

/-! ## ReviewSession (interactive loop of `main`, CLI lines 297–330)

The loop state is the `proposals` dict; `confirm` leaves the loop,
`cancel` exits, `edit` asks for an index, rejects one not in the item
list, and replaces that index's proposal with `(missing)` when the
stripped replacement is blank, else with the new name and an empty label:

```python
if not any(it["idx"] == idx for it in items):
    print("[!] Index not in list."); continue
newname = input("...").strip()
if not newname:
    proposals[idx] = {"name":"(missing)", "label":"(missing)"}
else:
    proposals[idx] = {"name": newname, "label": ""}
```
-/

/-- Phase of the review session. -/
inductive Phase
  | proposed
  | confirmed
  | cancelled
  deriving DecidableEq, Repr

/-- The review-session state: artifacts, the proposals dict, and phase. -/
structure Session where
  items : List OutItem
  props : List (ℕ × Proposal)
  phase : Phase
  deriving DecidableEq, Repr

/-- `proposals.get(idx, {"name":"(missing)", "label":"(missing)"})`. -/
def getProp (props : List (ℕ × Proposal)) (idx : ℕ) : Proposal :=
  ((props.find? (fun p => p.1 == idx)).map (fun p => p.2)).getD
    ⟨"(missing)", "(missing)"⟩

/-- `proposals[idx] = v` on the insertion-ordered dict. -/
def setProp (props : List (ℕ × Proposal)) (idx : ℕ) (v : Proposal) :
    List (ℕ × Proposal) :=
  if props.any (fun p => p.1 == idx) then
    props.map (fun p => if p.1 == idx then (p.1, v) else p)
  else props ++ [(idx, v)]

/-- The edit command: validates the index and updates the proposal;
`newname` is the already-stripped reply of
`input("Enter new name ... ").strip()` (the stripping happens at the I/O
site).  Returns the new session and whether the edit was accepted
(`false` = the "[!] Index not in list." input error). -/
def edit_cmd (s : Session) (idx : ℕ) (newname : String) : Session × Bool :=
  if s.items.any (fun it => it.idx == idx) then
    if newname = "" then
      ({ s with props := setProp s.props idx ⟨"(missing)", "(missing)"⟩ }, true)
    else
      ({ s with props := setProp s.props idx ⟨newname, ""⟩ }, true)
  else (s, false)

theorem find?_map_set (idx : ℕ) (v : Proposal) :
    ∀ (props : List (ℕ × Proposal)),
      props.any (fun p => p.1 == idx) = true →
      (props.map (fun p => if p.1 == idx then (p.1, v) else p)).find?
        (fun p => p.1 == idx) = some (idx, v) := by
  intro props
  induction props with
  | nil => intro h; simp at h
  | cons p t ih =>
    intro h
    rw [List.map_cons]
    by_cases hp : p.1 = idx
    · rw [if_pos (by simp [hp])]
      rw [List.find?_cons_of_pos _ (by simp [hp])]
      rw [hp]
    · rw [if_neg (by simp [hp])]
      rw [List.find?_cons_of_neg _ (by simp [hp])]
      apply ih
      rw [List.any_cons] at h
      simp only [Bool.or_eq_true, beq_iff_eq, hp, false_or] at h
      exact h

theorem find?_append_set (idx : ℕ) (v : Proposal) :
    ∀ (props : List (ℕ × Proposal)),
      props.any (fun p => p.1 == idx) = false →
      (props ++ [(idx, v)]).find? (fun p => p.1 == idx) = some (idx, v) := by
  intro props
  induction props with
  | nil =>
    intro _
    simp only [List.nil_append]
    rw [List.find?_cons_of_pos _ (by simp)]
  | cons p t ih =>
    intro h
    rw [List.any_cons] at h
    simp only [Bool.or_eq_false_iff] at h
    rw [List.cons_append, List.find?_cons_of_neg _ (by simp [h.1])]
    exact ih h.2

/-- Setting a key in the proposals dict makes lookups of that key return
the new value. -/
theorem getProp_setProp (props : List (ℕ × Proposal)) (idx : ℕ) (v : Proposal) :
    getProp (setProp props idx v) idx = v := by
  rw [setProp]
  by_cases h : props.any (fun p => p.1 == idx) = true
  · rw [if_pos h, getProp, find?_map_set idx v props h]
    rfl
  · rw [if_neg h, getProp,
      find?_append_set idx v props (Bool.eq_false_iff.2 h)]
    rfl

/-- C7: in state `Proposed`, `edit` with a valid index and blank
replacement sets that index's proposal to the missing sentinel regardless
of its prior flag; a non-blank replacement installs that name with no
flag, clearing any prior duplicate/missing flag; an index that matches no
artifact leaves the session (every proposal) unchanged, reports the input
error, and the session stays in `Proposed`. -/
theorem edit_cmd_spec (s : Session) (idx : ℕ) (newname : String)
    (hp : s.phase = Phase.proposed) :
    (s.items.any (fun it => it.idx == idx) = true →
      (edit_cmd s idx newname).1.phase = Phase.proposed ∧
      (edit_cmd s idx newname).2 = true ∧
      (newname = "" →
        getProp (edit_cmd s idx newname).1.props idx = ⟨"(missing)", "(missing)"⟩) ∧
      (newname ≠ "" →
        getProp (edit_cmd s idx newname).1.props idx = ⟨newname, ""⟩)) ∧
    (s.items.any (fun it => it.idx == idx) = false →
      edit_cmd s idx newname = (s, false) ∧ s.phase = Phase.proposed) := by
  constructor
  · intro h
    rw [edit_cmd, if_pos h]
    by_cases hb : newname = ""
    · rw [if_pos hb]
      exact ⟨hp, rfl, fun _ => getProp_setProp s.props idx _,
        fun hnb => absurd hb hnb⟩
    · rw [if_neg hb]
      exact ⟨hp, rfl, fun hbl => absurd hbl hb,
        fun _ => getProp_setProp s.props idx _⟩
  · intro h
    rw [edit_cmd, if_neg (by rw [h]; exact Bool.false_ne_true)]
    exact ⟨rfl, hp⟩

/-- C7 (witness): the theorem applied to a concrete one-artifact session
whose proposal carries the duplicate flag: a blank edit at index 1 yields
the missing sentinel, a non-blank edit yields the new name unflagged, and
editing index 2 is rejected without a change. -/
theorem edit_cmd_spec_witness :
    (getProp (edit_cmd ⟨[⟨1, 48640⟩], [(1, ⟨"x.exe", "(possible duplicate)"⟩)],
        Phase.proposed⟩ 1 "").1.props 1 = ⟨"(missing)", "(missing)"⟩) ∧
    (getProp (edit_cmd ⟨[⟨1, 48640⟩], [(1, ⟨"x.exe", "(possible duplicate)"⟩)],
        Phase.proposed⟩ 1 "new.exe").1.props 1 = ⟨"new.exe", ""⟩) ∧
    (edit_cmd ⟨[⟨1, 48640⟩], [(1, ⟨"x.exe", "(possible duplicate)"⟩)],
        Phase.proposed⟩ 2 "z.exe" =
      (⟨[⟨1, 48640⟩], [(1, ⟨"x.exe", "(possible duplicate)"⟩)],
        Phase.proposed⟩, false)) := by
  refine ⟨?_, ?_, ?_⟩
  · exact ((edit_cmd_spec
      ⟨[⟨1, 48640⟩], [(1, ⟨"x.exe", "(possible duplicate)"⟩)], Phase.proposed⟩
      1 "" rfl).1 (by decide)).2.2.1 rfl
  · exact ((edit_cmd_spec
      ⟨[⟨1, 48640⟩], [(1, ⟨"x.exe", "(possible duplicate)"⟩)], Phase.proposed⟩
      1 "new.exe" rfl).1 (by decide)).2.2.2 (by decide)
  · exact ((edit_cmd_spec
      ⟨[⟨1, 48640⟩], [(1, ⟨"x.exe", "(possible duplicate)"⟩)], Phase.proposed⟩
      2 "z.exe" rfl).2 (by decide)).1

/-! ## Materializer (CLI `main`, lines 332–344)

```python
made = 0
for it in items:
    prop = proposals.get(it["idx"], {"name":"(missing)", "label":"(missing)"})
    nm = prop["name"]
    if nm and nm != "(missing)":
        target = it["folder"] / nm
        if not target.exists():
            shutil.copy2(out_path, target)
            made += 1
```

The filesystem is modelled as the list of existing target paths
`(folder, final name)`; a copy appends the target. -/

/-- One artifact as seen by the materializer: index and its hash folder. -/
structure MatItem where
  idx : ℕ
  folder : String
  deriving DecidableEq, Repr

/-- One iteration of the materialization loop on the state
`(existing files, count of copies made)`. -/
def mat_step (props : List (ℕ × Proposal))
    (st : List (String × String) × ℕ) (it : MatItem) :
    List (String × String) × ℕ :=
  let nm := (getProp props it.idx).name
  if nm ≠ "" ∧ nm ≠ "(missing)" then
    if (it.folder, nm) ∈ st.1 then st
    else (st.1 ++ [(it.folder, nm)], st.2 + 1)
  else st

/-- The materialization loop: returns the resulting filesystem and the
count of copies actually made. -/
def materialize (items : List MatItem) (props : List (ℕ × Proposal))
    (fs : List (String × String)) : List (String × String) × ℕ :=
  items.foldl (mat_step props) (fs, 0)

/-- Characterization of the materialization fold: it appends a list of new
targets, each produced by an applicable item, and counts them. -/
theorem materialize_foldl_char (props : List (ℕ × Proposal)) :
    ∀ (items : List MatItem) (st : List (String × String) × ℕ),
      ∃ ex : List (String × String),
        (items.foldl (mat_step props) st).1 = st.1 ++ ex ∧
        (items.foldl (mat_step props) st).2 = st.2 + ex.length ∧
        ∀ t ∈ ex, ∃ it ∈ items,
          (getProp props it.idx).name ≠ "" ∧
          (getProp props it.idx).name ≠ "(missing)" ∧
          t = (it.folder, (getProp props it.idx).name) := by
  intro items
  induction items with
  | nil => intro st; exact ⟨[], by simp, by simp, by simp⟩
  | cons j rest ih =>
    intro st
    rw [List.foldl_cons]
    by_cases happ : (getProp props j.idx).name ≠ "" ∧
        (getProp props j.idx).name ≠ "(missing)"
    · by_cases hm : (j.folder, (getProp props j.idx).name) ∈ st.1
      · have hstep : mat_step props st j = st := by
          simp only [mat_step]
          rw [if_pos happ, if_pos hm]
        rw [hstep]
        rcases ih st with ⟨ex, h1, h2, h3⟩
        exact ⟨ex, h1, h2, fun t ht => (h3 t ht).elim (fun it hit =>
          ⟨it, List.mem_cons_of_mem j hit.1, hit.2⟩)⟩
      · have hstep : mat_step props st j =
            (st.1 ++ [(j.folder, (getProp props j.idx).name)], st.2 + 1) := by
          simp only [mat_step]
          rw [if_pos happ, if_neg hm]
        rw [hstep]
        rcases ih (st.1 ++ [(j.folder, (getProp props j.idx).name)], st.2 + 1)
          with ⟨ex, h1, h2, h3⟩
        refine ⟨(j.folder, (getProp props j.idx).name) :: ex, ?_, ?_, ?_⟩
        · rw [h1]
          simp
        · rw [h2]
          simp only [List.length_cons]
          omega
        · intro t ht
          rcases List.mem_cons.1 ht with rfl | ht
          · exact ⟨j, List.mem_cons_self _ _, happ.1, happ.2, rfl⟩
          · exact (h3 t ht).elim (fun it hit =>
              ⟨it, List.mem_cons_of_mem j hit.1, hit.2⟩)
    · have hstep : mat_step props st j = st := by
        simp only [mat_step]
        rw [if_neg happ]
      rw [hstep]
      rcases ih st with ⟨ex, h1, h2, h3⟩
      exact ⟨ex, h1, h2, fun t ht => (h3 t ht).elim (fun it hit =>
        ⟨it, List.mem_cons_of_mem j hit.1, hit.2⟩)⟩

/-- After the loop runs, every applicable item's target exists. -/
theorem materialize_targets_present (props : List (ℕ × Proposal)) :
    ∀ (items : List MatItem) (st : List (String × String) × ℕ)
      (it : MatItem), it ∈ items →
      (getProp props it.idx).name ≠ "" →
      (getProp props it.idx).name ≠ "(missing)" →
      (it.folder, (getProp props it.idx).name) ∈
        (items.foldl (mat_step props) st).1 := by
  intro items
  induction items with
  | nil => intro st it h; simp at h
  | cons j rest ih =>
    intro st it hmem h1 h2
    rw [List.foldl_cons]
    rcases List.mem_cons.1 hmem with rfl | hmem
    · have hin : (it.folder, (getProp props it.idx).name) ∈
          (mat_step props st it).1 := by
        simp only [mat_step]
        rw [if_pos ⟨h1, h2⟩]
        by_cases hm : (it.folder, (getProp props it.idx).name) ∈ st.1
        · rw [if_pos hm]; exact hm
        · rw [if_neg hm]
          simp
      rcases materialize_foldl_char props rest (mat_step props st it)
        with ⟨ex, hex1, _, _⟩
      rw [hex1]
      exact List.mem_append_left ex hin
    · exact ih (mat_step props st j) it hmem h1 h2

/-- If every applicable target already exists, the loop is a no-op. -/
theorem materialize_noop (props : List (ℕ × Proposal)) :
    ∀ (items : List MatItem) (st : List (String × String) × ℕ),
      (∀ it ∈ items,
        (getProp props it.idx).name ≠ "" →
        (getProp props it.idx).name ≠ "(missing)" →
        (it.folder, (getProp props it.idx).name) ∈ st.1) →
      items.foldl (mat_step props) st = st := by
  intro items
  induction items with
  | nil => intro st _; rfl
  | cons j rest ih =>
    intro st hall
    rw [List.foldl_cons]
    have hst : mat_step props st j = st := by
      simp only [mat_step]
      by_cases happ : (getProp props j.idx).name ≠ "" ∧
          (getProp props j.idx).name ≠ "(missing)"
      · rw [if_pos happ,
          if_pos (hall j (List.mem_cons_self _ _) happ.1 happ.2)]
      · rw [if_neg happ]
    rw [hst]
    exact ih st (fun it hmem => hall it (List.mem_cons_of_mem j hmem))

theorem mat_step_nodup (props : List (ℕ × Proposal))
    (st : List (String × String) × ℕ) (it : MatItem)
    (h : st.1.Nodup) : (mat_step props st it).1.Nodup := by
  simp only [mat_step]
  by_cases happ : (getProp props it.idx).name ≠ "" ∧
      (getProp props it.idx).name ≠ "(missing)"
  · rw [if_pos happ]
    by_cases hm : (it.folder, (getProp props it.idx).name) ∈ st.1
    · rw [if_pos hm]; exact h
    · rw [if_neg hm, List.nodup_append]
      refine ⟨h, List.nodup_singleton _, ?_⟩
      intro a ha hb
      rw [List.mem_singleton] at hb
      exact hm (hb ▸ ha)
  · rw [if_neg happ]; exact h

/-- C8: the materializer copies only for artifacts with a usable (non-
missing, non-empty) proposal name and only to targets that do not already
exist, never removes or overwrites a file, returns the count of copies
actually made (final file count = initial + returned count), and it is
idempotent: a second run on its own output creates the same file set and
returns zero. -/
theorem materialize_spec (items : List MatItem) (props : List (ℕ × Proposal))
    (fs : List (String × String)) :
    (∀ t ∈ fs, t ∈ (materialize items props fs).1) ∧
    (∀ t ∈ (materialize items props fs).1, t ∈ fs ∨ ∃ it ∈ items,
      (getProp props it.idx).name ≠ "" ∧
      (getProp props it.idx).name ≠ "(missing)" ∧
      t = (it.folder, (getProp props it.idx).name)) ∧
    ((materialize items props fs).1.length =
      fs.length + (materialize items props fs).2) ∧
    (materialize items props (materialize items props fs).1 =
      ((materialize items props fs).1, 0)) := by
  rcases materialize_foldl_char props items (fs, 0) with ⟨ex, hex1, hex2, hex3⟩
  have hm : materialize items props fs = items.foldl (mat_step props) (fs, 0) := rfl
  refine ⟨?_, ?_, ?_, ?_⟩
  · intro t ht
    rw [hm, hex1]
    exact List.mem_append_left ex ht
  · intro t ht
    rw [hm, hex1] at ht
    rcases List.mem_append.1 ht with h | h
    · exact Or.inl h
    · exact Or.inr (hex3 t h)
  · rw [hm, hex1, hex2, List.length_append]
    simp
  · show items.foldl (mat_step props) ((materialize items props fs).1, 0) =
      ((materialize items props fs).1, 0)
    exact materialize_noop props items ((materialize items props fs).1, 0)
      (fun it hmem h1 h2 =>
        materialize_targets_present props items (fs, 0) it hmem h1 h2)

/-- C8 (witness): one artifact with proposal name `a.exe`: a first run on
an empty directory creates the file and reports one copy; applying the
theorem, a second run is a no-op with count zero. -/
theorem materialize_spec_witness :
    materialize [⟨1, "d"⟩] [(1, ⟨"a.exe", ""⟩)] [] = ([("d", "a.exe")], 1) ∧
    materialize [⟨1, "d"⟩] [(1, ⟨"a.exe", ""⟩)] [("d", "a.exe")] =
      ([("d", "a.exe")], 0) := by
  have e : materialize [⟨1, "d"⟩] [(1, ⟨"a.exe", ""⟩)] [] =
      ([("d", "a.exe")], 1) := by decide
  have h := (materialize_spec [⟨1, "d"⟩] [(1, ⟨"a.exe", ""⟩)] []).2.2.2
  rw [e] at h
  exact ⟨e, h⟩

/-! ## Candidate consumption (C4) -/

/-- Evaluation helper: zero deviation at size 100000 is within the 3%
band. -/
theorem within_tol_eval_self : within_tol 100000 100000 = true := by
  rw [within_tol]
  norm_num

/-- C4 (counterexample): two artifacts of size 100000 and the candidate
list `[("X",100000), ("Y",100000)]`: both artifact sizes are within
tolerance of the candidate `("Y",100000)`, yet both proposals carry the
name `"X"` (the first matching candidate), not `"Y"` — so it is not true
that every candidate within tolerance of two artifacts has its name
received by both as their proposal. -/
theorem candidate_sharing_counterexample :
    within_tol 100000 100000 = true ∧
    propose_names [⟨1, 100000⟩, ⟨2, 100000⟩] [("X", 100000), ("Y", 100000)] =
      [(1, ⟨"X", "(possible duplicate)"⟩), (2, ⟨"X", "(possible duplicate)"⟩)] ∧
    ("X" : String) ≠ "Y" := by
  refine ⟨within_tol_eval_self, ?_, by decide⟩
  have hg : group_by_size [("X", (100000 : ℤ)), ("Y", 100000)] =
      [(100000, ["X", "Y"])] := by decide
  have hmr : matched_raw 100000 [((100000 : ℤ), ["X", "Y"])] = ["X", "Y"] := by
    rw [matched_raw]
    simp [within_tol_eval_self]
  have hmn : matched_names 100000 [("X", (100000 : ℤ)), ("Y", 100000)] =
      ["X", "Y"] := by
    rw [matched_names, hg, hmr]
    decide
  have hp1 : propose_one 100000 [("X", (100000 : ℤ)), ("Y", 100000)] =
      ⟨"X", "(possible duplicate)"⟩ := by
    simp only [propose_one, hmn]
    decide
  simp [propose_names, hp1]

/-- C4 (amended): in the CLI Matcher, candidate consumption is
non-exclusive — every candidate within tolerance of an artifact's size
contributes its name to that artifact's matched-name set, and each
artifact's proposal is computed from its own size and the full candidate
list alone, so proposing a candidate's name for one artifact never removes
that candidate from any other artifact's consideration (though with
several matching names each artifact receives the first matching name);
materialization, by contrast, is exclusive: a second request for an
already-existing target is a no-op, and a run started on a duplicate-free
directory writes each final name at most once per directory. -/
theorem matching_nonexclusive_materialize_exclusive :
    (∀ (S : ℤ) (cs : List Cand) (c : Cand), c ∈ cs → within_tol S c.2 = true →
      c.1 ∈ matched_names S cs) ∧
    (∀ (items : List OutItem) (cs : List Cand) (it : OutItem), it ∈ items →
      (it.idx, propose_one it.out_size cs) ∈ propose_names items cs) ∧
    (∀ (props : List (ℕ × Proposal)) (st : List (String × String) × ℕ)
      (it : MatItem),
      (it.folder, (getProp props it.idx).name) ∈ st.1 →
      mat_step props st it = st) ∧
    (∀ (items : List MatItem) (props : List (ℕ × Proposal))
      (fs : List (String × String)),
      fs.Nodup → (materialize items props fs).1.Nodup) := by
  refine ⟨?_, ?_, ?_, ?_⟩
  · intro S cs c hc hw
    rw [mem_matched_names]
    exact List.mem_map_of_mem _ (List.mem_filter.2 ⟨hc, hw⟩)
  · intro items cs it hit
    rw [propose_names]
    exact List.mem_map_of_mem _ hit
  · intro props st it hmem
    simp only [mat_step]
    by_cases happ : (getProp props it.idx).name ≠ "" ∧
        (getProp props it.idx).name ≠ "(missing)"
    · rw [if_pos happ, if_pos hmem]
    · rw [if_neg happ]
  · intro items props fs hnd
    rw [materialize]
    have : ∀ (st : List (String × String) × ℕ), st.1.Nodup →
        (items.foldl (mat_step props) st).1.Nodup := by
      induction items with
      | nil => intro st h; exact h
      | cons j rest ih =>
        intro st h
        rw [List.foldl_cons]
        exact ih (mat_step props st j) (mat_step_nodup props st j h)
    exact this (fs, 0) hnd

/-- C4 (witness): the amended theorem applied at concrete inputs — the
matching candidate `("X",100000)` is in the artifact's matched names, a
one-artifact proposal list contains that artifact's proposal, a
materialization step whose target exists is a no-op, and materializing
into an empty directory keeps the file list duplicate-free. -/
theorem matching_nonexclusive_materialize_exclusive_witness :
    ("X" ∈ matched_names 100000 [("X", 100000)]) ∧
    ((1, propose_one 5 []) ∈ propose_names [⟨1, 5⟩] []) ∧
    (mat_step [(1, ⟨"a", ""⟩)] ([("d", "a")], 0) ⟨1, "d"⟩ = ([("d", "a")], 0)) ∧
    ((materialize [⟨1, "d"⟩] [(1, ⟨"a", ""⟩)] []).1.Nodup) := by
  refine ⟨?_, ?_, ?_, ?_⟩
  · exact matching_nonexclusive_materialize_exclusive.1 100000 [("X", 100000)]
      ("X", 100000) (by decide) within_tol_eval_self
  · exact matching_nonexclusive_materialize_exclusive.2.1 [⟨1, 5⟩] [] ⟨1, 5⟩
      (by decide)
  · exact matching_nonexclusive_materialize_exclusive.2.2.1
      [(1, ⟨"a", ""⟩)] ([("d", "a")], 0) ⟨1, "d"⟩ (by decide)
  · exact matching_nonexclusive_materialize_exclusive.2.2.2
      [⟨1, "d"⟩] [(1, ⟨"a", ""⟩)] [] (by decide)

/-! ## CandidateExtractor

CLI `ocr_candidates` (lines 138–161) and GUI `parse_ocr_candidates`
(lines 146–172).  The regular-expression engine is the out-of-scope
collaborator; it is modelled by opaque parameters:

* `fileNameOf line` models `Path(FILE_RE.search(line).group(1)).name.strip()`
  (`none` when `FILE_RE` does not match) — the CLI takes the first match
  per line;
* `fileFinds line` models the GUI's
  `[safe_basename(m.group(1)) for m in FILE_RX.finditer(line)]`;
* `sizeSearch text` models `SIZE_RE.search(text).group(0)`;
* `toBytesF tok` models `to_bytes_human` / `to_bytes` (`none` on parse
  failure). -/

section OCR

variable (fileNameOf : String → Option String)
variable (fileFinds : String → List String)
variable (sizeSearch : String → Option String)
variable (toBytesF : String → Option ℤ)

/-- `" ".join(lines[max(i-1,0): i+2])`: the window of adjacent lines
searched for a size token (truncated ℕ subtraction gives `max(i-1,0)`). -/
def window_text (lines : List String) (i : ℕ) : String :=
  String.intercalate " " ((lines.drop (i - 1)).take (i + 2 - (i - 1)))

/-- What one line of OCR text contributes to the CLI candidate list: the
filename match, if any, paired with the size parsed from the window;
a filename with no size token in the window, an unparsable size, and a
zero size (`if sz:` is false for `0`) all contribute nothing. -/
def line_contrib (lines : List String) (i : ℕ) : Option Cand :=
  (fileNameOf (lines.getD i "")).bind (fun nm =>
    (sizeSearch (window_text lines i)).bind (fun tok =>
      (toBytesF tok).bind (fun sz =>
        if sz = 0 then none else some (nm, sz))))

/-- The dedup key `(nm.lower(), sz)` of the CLI extractor. -/
def cand_key (c : Cand) : String × ℤ := (c.1.toLower, c.2)

/-- CLI `ocr_candidates` over the recognized text of each image (a list of
lines per image): collect the per-line contributions in order, then dedup
by `(lower-cased name, size)` keeping first occurrences. -/
def ocr_candidates (texts : List (List String)) : List Cand :=
  dedupFirstBy cand_key
    (texts.flatMap (fun lines =>
      (List.range lines.length).filterMap
        (line_contrib fileNameOf sizeSearch toBytesF lines)))

theorem line_contrib_eq_some (lines : List String) (i : ℕ) (c : Cand) :
    line_contrib fileNameOf sizeSearch toBytesF lines i = some c ↔
      fileNameOf (lines.getD i "") = some c.1 ∧
      ∃ tok, sizeSearch (window_text lines i) = some tok ∧
        toBytesF tok = some c.2 ∧ c.2 ≠ 0 := by
  rw [line_contrib]
  simp only [Option.bind_eq_some]
  constructor
  · rintro ⟨nm, h1, tok, h2, sz, h3, hif⟩
    by_cases h4 : sz = 0
    · rw [if_pos h4] at hif
      exact absurd hif (by simp)
    · rw [if_neg h4, Option.some.injEq] at hif
      subst hif
      exact ⟨h1, tok, h2, h3, h4⟩
  · rintro ⟨h1, tok, h2, h3, h4⟩
    refine ⟨c.1, h1, tok, h2, c.2, h3, ?_⟩
    rw [if_neg h4]

/-- GUI `size_near`: check lines `i`, `i+1`, `i-1` in that order (with
bounds checks) and parse the first size token found. -/
def size_near (lines : List String) (i : ℕ) : Option ℤ :=
  match (if i < lines.length then sizeSearch (lines.getD i "") else none) with
  | some tok => toBytesF tok
  | none =>
    match (if i + 1 < lines.length then sizeSearch (lines.getD (i + 1) "")
        else none) with
    | some tok => toBytesF tok
    | none =>
      match (if 1 ≤ i ∧ i - 1 < lines.length then
          sizeSearch (lines.getD (i - 1) "") else none) with
      | some tok => toBytesF tok
      | none => none

/-- The GUI dedup key `(f.lower(), s)` (the size may be absent). -/
def gcand_key (c : String × Option ℤ) : String × Option ℤ := (c.1.toLower, c.2)

/-- GUI `parse_ocr_candidates`: every filename match of every line, paired
with `size_near` of its line — entries with no size are kept (size
`none`) — then dedup by `(lower-cased name, size)`. -/
def parse_ocr_candidates (lines : List String) : List (String × Option ℤ) :=
  dedupFirstBy gcand_key
    ((List.range lines.length).flatMap (fun i =>
      (fileFinds (lines.getD i "")).map
        (fun f => (f, size_near sizeSearch toBytesF lines i))))

/-- One step of the GUI scoring loop in `run_ocr`: candidates whose size
is `None` or `0` are skipped (`if not sz: continue`); otherwise the best
(smallest) relative score so far is kept. -/
def gui_best_step (S : ℤ) (acc : String × Option ℤ × ℚ)
    (c : String × Option ℤ) : String × Option ℤ × ℚ :=
  match c.2 with
  | none => acc
  | some sz =>
    if sz = 0 then acc
    else
      let score := ((S - sz).natAbs : ℚ) / ((max sz 1 : ℤ) : ℚ)
      if score < acc.2.2 then (c.1, some sz, score) else acc

/-- The GUI per-row best-candidate search (`best_score = 1e9` start). -/
def gui_best (S : ℤ) (cands : List (String × Option ℤ)) :
    String × Option ℤ × ℚ :=
  cands.foldl (gui_best_step S) ("", none, (10 : ℚ) ^ 9)

/-- Candidates without a usable size are invisible to the GUI matcher. -/
theorem gui_best_foldl_skip (S : ℤ) :
    ∀ (cands : List (String × Option ℤ)) (acc : String × Option ℤ × ℚ),
      cands.foldl (gui_best_step S) acc =
        (cands.filter (fun c => !(c.2.getD 0 == 0))).foldl
          (gui_best_step S) acc := by
  intro cands
  induction cands with
  | nil => intro acc; rfl
  | cons c rest ih =>
    intro acc
    rw [List.foldl_cons, List.filter_cons]
    rcases hc : c.2 with _ | sz
    · have hstep : gui_best_step S acc c = acc := by
        simp [gui_best_step, hc]
      rw [hstep, if_neg (by simp [hc])]
      exact ih acc
    · by_cases hz : sz = 0
      · have hstep : gui_best_step S acc c = acc := by
          simp [gui_best_step, hc, hz]
        rw [hstep, if_neg (by simp [hc, hz])]
        exact ih acc
      · rw [if_pos (by simp [hc, hz])]
        rw [List.foldl_cons]
        exact ih (gui_best_step S acc c)

/-- C6 (counterexample): concrete collaborators consistent with the real
regexes on the one-line text `"a.zip"` — `FILE_RX` matches `a.zip`,
`SIZE_RX` finds no size token anywhere: the GUI extractor
`parse_ocr_candidates` still emits the entry `("a.zip", none)`, so its
output does contain an entry derived from a filename match with no size
token in the window (the CLI extractor discards it; the GUI defers the
discard to its matcher). -/
def file_finds_demo : String → List String :=
  fun s => if s = "a.zip" then ["a.zip"] else []

def size_search_none : String → Option String := fun _ => none

def to_bytes_none : String → Option ℤ := fun _ => none

theorem parse_keeps_sizeless_counterexample :
    parse_ocr_candidates file_finds_demo size_search_none to_bytes_none
        ["a.zip"] = [("a.zip", none)] ∧
    size_search_none "a.zip" = none ∧
    ocr_candidates (fun s => if s = "a.zip" then some "a.zip" else none)
        size_search_none to_bytes_none [["a.zip"]] = [] := by
  refine ⟨by decide, rfl, by decide⟩

/-- C6 (amended): the CLI extractor's output contains only entries whose
line had a filename match and whose window had a size token that parsed to
a nonzero byte count — filename matches with no such size are discarded —
and the output is the input contribution stream deduplicated by
`(lower-cased name, size)`: its keys are pairwise distinct, it is a
sublist (order preserved), every raw entry's key survives, and each kept
entry is the first raw entry bearing its key.  The GUI extractor keeps
sizeless entries (size `none`) — every filename match of every line is
emitted with whatever `size_near` yields, `none` included — and its output
is the same kind of first-occurrence dedup by `(lower-cased name, size)`:
pairwise-distinct keys, a sublist of the match stream (order preserved),
every raw key surviving, each kept entry being the first raw entry with
its key; its matcher skips every candidate with size `None`/`0`, so such
entries cannot participate in matching. -/
theorem ocr_candidates_spec (texts : List (List String))
    (glines : List String) :
    (∀ c ∈ ocr_candidates fileNameOf sizeSearch toBytesF texts,
      ∃ ls ∈ texts, ∃ i, i < ls.length ∧
        fileNameOf (ls.getD i "") = some c.1 ∧
        ∃ tok, sizeSearch (window_text ls i) = some tok ∧
          toBytesF tok = some c.2 ∧ c.2 ≠ 0) ∧
    ((ocr_candidates fileNameOf sizeSearch toBytesF texts).map cand_key).Nodup ∧
    (ocr_candidates fileNameOf sizeSearch toBytesF texts).Sublist
      (texts.flatMap (fun lines => (List.range lines.length).filterMap
        (line_contrib fileNameOf sizeSearch toBytesF lines))) ∧
    (∀ c ∈ texts.flatMap (fun lines => (List.range lines.length).filterMap
        (line_contrib fileNameOf sizeSearch toBytesF lines)),
      cand_key c ∈
        (ocr_candidates fileNameOf sizeSearch toBytesF texts).map cand_key) ∧
    (∀ c ∈ ocr_candidates fileNameOf sizeSearch toBytesF texts,
      (texts.flatMap (fun lines => (List.range lines.length).filterMap
        (line_contrib fileNameOf sizeSearch toBytesF lines))).find?
        (fun z => decide (cand_key z = cand_key c)) = some c) ∧
    ((parse_ocr_candidates fileFinds sizeSearch toBytesF glines).map
      gcand_key).Nodup ∧
    (∀ (S : ℤ) (cands : List (String × Option ℤ)),
      gui_best S cands =
        gui_best S (cands.filter (fun c => !(c.2.getD 0 == 0)))) ∧
    (∀ c ∈ parse_ocr_candidates fileFinds sizeSearch toBytesF glines,
      ∃ i, i < glines.length ∧ c.1 ∈ fileFinds (glines.getD i "") ∧
        c.2 = size_near sizeSearch toBytesF glines i) ∧
    (parse_ocr_candidates fileFinds sizeSearch toBytesF glines).Sublist
      ((List.range glines.length).flatMap (fun i =>
        (fileFinds (glines.getD i "")).map
          (fun f => (f, size_near sizeSearch toBytesF glines i)))) ∧
    (∀ c ∈ (List.range glines.length).flatMap (fun i =>
        (fileFinds (glines.getD i "")).map
          (fun f => (f, size_near sizeSearch toBytesF glines i))),
      gcand_key c ∈
        (parse_ocr_candidates fileFinds sizeSearch toBytesF glines).map
          gcand_key) ∧
    (∀ c ∈ parse_ocr_candidates fileFinds sizeSearch toBytesF glines,
      ((List.range glines.length).flatMap (fun i =>
        (fileFinds (glines.getD i "")).map
          (fun f => (f, size_near sizeSearch toBytesF glines i)))).find?
        (fun z => decide (gcand_key z = gcand_key c)) = some c) ∧
    (∀ i, i < glines.length → ∀ f ∈ fileFinds (glines.getD i ""),
      gcand_key (f, size_near sizeSearch toBytesF glines i) ∈
        (parse_ocr_candidates fileFinds sizeSearch toBytesF glines).map
          gcand_key) := by
  refine ⟨?_, ?_, ?_, ?_, ?_, ?_, ?_, ?_, ?_, ?_, ?_, ?_⟩
  · intro c hc
    have hcraw : c ∈ texts.flatMap (fun lines =>
        (List.range lines.length).filterMap
          (line_contrib fileNameOf sizeSearch toBytesF lines)) :=
      (dedup_aux_sublist cand_key _ []).subset hc
    rcases List.mem_flatMap.1 hcraw with ⟨ls, hls, hcls⟩
    rcases List.mem_filterMap.1 hcls with ⟨i, hi, hline⟩
    rcases (line_contrib_eq_some fileNameOf sizeSearch toBytesF ls i c).1 hline
      with ⟨hname, tok, htok, hb, hnz⟩
    exact ⟨ls, hls, i, List.mem_range.1 hi, hname, tok, htok, hb, hnz⟩
  · exact nodup_map_dedup_aux cand_key _ []
  · exact dedup_aux_sublist cand_key _ []
  · intro c hc
    rw [ocr_candidates, dedupFirstBy, mem_map_dedup_aux]
    exact ⟨List.mem_map_of_mem cand_key hc, by simp⟩
  · intro c hc
    exact find?_dedup_aux cand_key _ [] c hc
  · exact nodup_map_dedup_aux gcand_key _ []
  · intro S cands
    rw [gui_best, gui_best, gui_best_foldl_skip]
  · intro c hc
    have hcraw : c ∈ (List.range glines.length).flatMap (fun i =>
        (fileFinds (glines.getD i "")).map
          (fun f => (f, size_near sizeSearch toBytesF glines i))) :=
      (dedup_aux_sublist gcand_key _ []).subset hc
    rcases List.mem_flatMap.1 hcraw with ⟨i, hi, hci⟩
    rcases List.mem_map.1 hci with ⟨f, hf, rfl⟩
    exact ⟨i, List.mem_range.1 hi, hf, rfl⟩
  · exact dedup_aux_sublist gcand_key _ []
  · intro c hc
    rw [parse_ocr_candidates, dedupFirstBy, mem_map_dedup_aux]
    exact ⟨List.mem_map_of_mem gcand_key hc, by simp⟩
  · intro c hc
    exact find?_dedup_aux gcand_key _ [] c hc
  · intro i hi f hf
    rw [parse_ocr_candidates, dedupFirstBy, mem_map_dedup_aux]
    refine ⟨List.mem_map_of_mem gcand_key ?_, by simp⟩
    exact List.mem_flatMap.2 ⟨i, List.mem_range.2 hi,
      List.mem_map_of_mem _ hf⟩

end OCR

/-- C6 (witness): the amended theorem applied to the concrete collaborators
of the counterexample: the CLI output keys are duplicate-free, the GUI
scoring loop gives the same result on a sizeless candidate list as on the
empty list, and the GUI extractor keeps the sizeless `a.zip` entry. -/
theorem ocr_candidates_spec_witness :
    ((ocr_candidates (fun s => if s = "a.zip" then some "a.zip" else none)
        size_search_none to_bytes_none [["a.zip"]]).map cand_key).Nodup ∧
    gui_best 5 [("a", none)] = gui_best 5 [] ∧
    gcand_key ("a.zip", size_near size_search_none to_bytes_none
        ["a.zip"] 0) ∈
      (parse_ocr_candidates file_finds_demo size_search_none to_bytes_none
        ["a.zip"]).map gcand_key := by
  have h := ocr_candidates_spec
    (fun s => if s = "a.zip" then some "a.zip" else none)
    file_finds_demo size_search_none to_bytes_none [["a.zip"]] ["a.zip"]
  refine ⟨h.2.1, ?_, ?_⟩
  · have h7 := h.2.2.2.2.2.2.1 5 [("a", none)]
    rw [h7]
    congr 1
  · exact h.2.2.2.2.2.2.2.2.2.2.2 0 (by decide) "a.zip" (by decide)

/-! ## Standalone size-guessing script (guess_from_sizes.py)

`best_match` consumes candidates exclusively through the global `taken`
set, and `main` silently ignores any decrypted artifact smaller than
44 KiB:

```python
if size < 44 * 1024:   # ignore <44 KB
    continue
```
-/

/-- `base_only`: normalize backslashes, strip, and keep the basename. -/
def base_only (name : String) : String :=
  (((name.replace "\\" "/").trim).splitOn "/").getLastD ""

/-- `int(num * mult)` of `size_to_bytes`, with the display number as an
exact rational (the truncation agrees with Python's float arithmetic on
every entry of the candidate table below). -/
def size_to_bytes (num : ℚ) (mult : ℤ) : ℤ := ⌊num * (mult : ℚ)⌋

/-- The hardcoded display-size candidate table `CANDIDATES`. -/
def CANDIDATES : List (String × ℚ × ℤ) := [
  ("Metro Exodus v1.0.0.7 Plus +20 Trainer-FutureX.rar", 5947/10, 1024),
  ("Nethunter-Sony_Xperia_XA_F3111-MT6755-20170223_122556.zip", 762/10, 1024^2),
  ("UltraMP3.zip", 6311/10, 1024),
  ("Ultra MP3 v1.45 Keygen.rar", 443/10, 1024),
  ("UltraMP3 keygen.exe (SFILE.MOBI).zip", 444/10, 1024),
  ("keygen ultra mp3.zip", 444/10, 1024),
  ("UltraMP3keygen.exe", 475/10, 1024),
  ("Ultra MP3 v1.45 Keygen.exe", 475/10, 1024),
  ("UltraMP3_keygen.exe", 475/10, 1024),
  ("nethunter-2024.1-oneplus7-oos-eleven-kalifs-full.zip", 22/10, 1024^3),
  ("Nexus 5-20240115T193417Z-001.zip", 16/10, 1024^3),
  ("nethunter-2022.4-hammerhead-marshmallow-kalifs-full.zip", 18/10, 1024^3),
  ("nethunter-2020.3-hammerhead-nougat-kalifs-full.zip", 12/10, 1024^3),
  ("UFED 7.68 Activation Files.rar", 1263/10, 1024^2)]

/-- `CANDS = [(base_only(name), size_to_bytes(sz)) for ...]`. -/
def CANDS : List Cand :=
  CANDIDATES.map (fun c => (base_only c.1, size_to_bytes c.2.1 c.2.2))

/-- One iteration of `best_match`'s minimum search over `enumerate(CANDS)`
(`None` plays the role of `best_diff = inf`; strict `<` keeps the first
minimum). -/
def best_step (byte_size : ℤ) (taken : List ℕ) (acc : Option (ℕ × ℚ))
    (ic : ℕ × Cand) : Option (ℕ × ℚ) :=
  if ic.1 ∈ taken then acc
  else
    let diff := ((byte_size - ic.2.2).natAbs : ℚ) / (ic.2.2 : ℚ)
    match acc with
    | none => some (ic.1, diff)
    | some bd => if diff < bd.2 then some (ic.1, diff) else acc

/-- `best_match`: the best not-yet-taken candidate by relative size
difference; on success the winner is added to `taken` (exclusive
consumption).  Returns the proposed name with its difference, plus the
updated `taken` set. -/
def best_match (taken : List ℕ) (byte_size : ℤ) :
    Option (String × ℚ) × List ℕ :=
  match CANDS.enum.foldl (best_step byte_size taken) none with
  | some bd =>
    if bd.2 ≤ (if byte_size < 1024 * 1024 then (3 : ℚ) / 100
        else (2 : ℚ) / 100) then
      (some ((CANDS.getD bd.1 ("", 0)).1, bd.2), bd.1 :: taken)
    else (none, taken)
  | none => (none, taken)

/-- One `.out` file's processing in `guess_from_sizes.main` on the state
`((taken, existing files), copies made)`: sizes below 44 KiB are skipped
before any matching; otherwise `best_match` runs (possibly consuming a
candidate), and a copy is made only when the guessed target is new. -/
def guess_step (st : (List ℕ × List (String × String)) × ℕ)
    (entry : String × ℤ) : (List ℕ × List (String × String)) × ℕ :=
  if entry.2 < 44 * 1024 then st
  else
    match best_match st.1.1 entry.2 with
    | (none, taken2) => ((taken2, st.1.2), st.2)
    | (some g, taken2) =>
      if (entry.1, base_only g.1) ∈ st.1.2 then ((taken2, st.1.2), st.2)
      else ((taken2, st.1.2 ++ [(entry.1, base_only g.1)]), st.2 + 1)

/-- C10: the standalone size-guessing script silently skips every
decrypted artifact strictly smaller than 45056 bytes (44 KiB): the state
is returned unchanged — no candidate is consumed, no file is created, and
the copy count does not move — regardless of the candidate list state. -/
theorem guess_skips_small (st : (List ℕ × List (String × String)) × ℕ)
    (dir : String) (size : ℤ) (h : size < 45056) :
    guess_step st (dir, size) = st := by
  rw [guess_step]
  rw [if_pos (show (dir, size).2 < 44 * 1024 by simpa using (by omega : size < 45056))]

/-- C10 (witness): a 100-byte artifact is skipped from the initial state. -/
theorem guess_skips_small_witness :
    guess_step (([], []), 0) ("d", 100) = (([], []), 0) :=
  guess_skips_small (([], []), 0) "d" 100 (by decide)

end EsetRecovery
